import Mathlib

/-!
Verification of the sequence-manipulation primitives of the CRISPR
comparison toolkit (`cctkpkg/sequence_operations.py`): reverse
complement, shifted Hamming distance, and Needleman-Wunsch global
pairwise alignment (`needle`).

Sequences are modelled as `List Char` (a Python `str` is an ordered
sequence of characters; token lists/tuples carry the same structure).
Numeric scoring parameters are modelled as `Int`: the source accepts
`int` or `float`, the defaults are the integers 100, -1, -2, and all
score arithmetic on such inputs is exact.
-/

namespace SeqOps

/-! ### rev_comp -/

/-- The `rev_comp_lookup` dict of the source: complement table for the
eight recognised nucleotide characters, `none` for any other key
(membership in the string "ATCGatcg" coincides with the dict's domain). -/
def rev_comp_lookup (c : Char) : Option Char :=
  if c = 'A' then some 'T'
  else if c = 'T' then some 'A'
  else if c = 'C' then some 'G'
  else if c = 'G' then some 'C'
  else if c = 'a' then some 't'
  else if c = 't' then some 'a'
  else if c = 'c' then some 'g'
  else if c = 'g' then some 'c'
  else none

/-- One loop iteration of `rev_comp`: the looked-up complement when the
character is one of "ATCGatcg", otherwise the character unchanged. -/
def comp_base (c : Char) : Char := (rev_comp_lookup c).getD c

/-- Body of `rev_comp`: iterate over the reversed string, appending the
complement (or the unrecognised character unchanged) to the accumulator. -/
def rev_comp (s : List Char) : List Char :=
  s.reverse.foldl (fun acc i => acc ++ [comp_base i]) []

/-! ### hamming -/

/-- One of the three counting loops of `hamming`: iterate `i` over
`range (max len1 len2)`; inside the common range count positionwise
inequality, beyond the shorter sequence count every position. -/
def hamming_loop (s t : List Char) : Nat :=
  (List.range (max s.length t.length)).foldl
    (fun d i =>
      if i < s.length ∧ i < t.length then
        if s.getD i ' ' ≠ t.getD i ' ' then d + 1 else d
      else d + 1) 0

/-- Result of `hamming`: the triple (dist, distplus1, distminus1), the last two
computed against `string1[1:]` and `string2[1:]` respectively. -/
def hamming (s t : List Char) : Nat × Nat × Nat :=
  (hamming_loop s t, hamming_loop (s.drop 1) t, hamming_loop s (t.drop 1))

/-! ### needle: score grid

The numpy grid has `len(seq2)+1` rows and `len(seq1)+1` columns;
`grid r c` below is the cell at row `r`, column `c`.  The Python fill
order (outer loop over seq1 columns, inner over seq2 rows) computes each
cell from its diagonal, left, and up neighbours, all of which are
already filled whichever of the two nested-loop orders is used, so the
grid is the unique solution of the recurrence; we compute it row by row
to keep the definition structurally recursive. -/

/-- Match/mismatch score for one pair of symbols (the `seq1[i] == seq2[j]`
comparison of the source). -/
def nw_score (ma mi : Int) (x y : Char) : Int := if x = y then ma else mi

/-- Row `i+1` of the score grid, given row `i` (`prev`).  Column 0 is the
cumulative gap penalty `gap*(i+1)`; column `j+1` is the max of
diagonal+match/mismatch, left+gap, up+gap, exactly the
`grid[j+1][i+1] = max([...])` assignment of the source. -/
def gridRow (ma mi g : Int) (s1 s2 : List Char) (prev : Nat → Int) (i : Nat) :
    Nat → Int
  | 0 => g * ((i : Int) + 1)
  | j + 1 =>
      max (prev j + nw_score ma mi (s1.getD j ' ') (s2.getD i ' '))
        (max (gridRow ma mi g s1 s2 prev i j + g) (prev (j + 1) + g))

/-- The filled score grid: row 0 is the cumulative gap penalty
`gap*j`; each later row is computed from the previous one. -/
def grid (ma mi g : Int) (s1 s2 : List Char) : Nat → Nat → Int
  | 0 => fun j => g * (j : Int)
  | i + 1 => gridRow ma mi g s1 s2 (grid ma mi g s1 s2 i) i

/-! ### needle: backtrace

The backtrace walks from cell `(len seq2, len seq1)` to the origin,
prepending the consumed symbols; the Python code appends and reverses at
the end, which builds exactly the same list.  State `(i, j)` of the walk
is mirrored by `backtrace i j` below; like the grid it is computed row by
row so that it is structurally recursive. -/

/-- Backtrace states on row 0: only the `while j > 0` loop of the source
runs, consuming the rest of seq1 against gaps. -/
def btRow0 (s1 : List Char) : Nat → List Char × List Char
  | 0 => ([], [])
  | j + 1 =>
      let p := btRow0 s1 j
      (s1.getD j ' ' :: p.1, '-' :: p.2)

/-- Backtrace states on row `i+1`, given the states of row `i` (`prev`).
At column 0 only the `while i > 0` loop runs.  At column `j+1` the three
transition checks of the source are tried in order: diagonal
(`score_current == score_diagonal + score`), then `score_up + gap`
(consume a seq1 symbol), then `score_left + gap` (consume a seq2
symbol).  The final branch is unreachable because the cell is by
construction the max of the three candidates (the Python loop would spin
forever there). -/
def btRow (ma mi g : Int) (s1 s2 : List Char)
    (prev : Nat → List Char × List Char) (i : Nat) :
    Nat → List Char × List Char
  | 0 =>
      let p := prev 0
      ('-' :: p.1, s2.getD i ' ' :: p.2)
  | j + 1 =>
      let cur := grid ma mi g s1 s2 (i + 1) (j + 1)
      if cur = grid ma mi g s1 s2 i j +
          nw_score ma mi (s1.getD j ' ') (s2.getD i ' ') then
        let p := prev j
        (s1.getD j ' ' :: p.1, s2.getD i ' ' :: p.2)
      else if cur = grid ma mi g s1 s2 (i + 1) j + g then
        let p := btRow ma mi g s1 s2 prev i j
        (s1.getD j ' ' :: p.1, '-' :: p.2)
      else if cur = grid ma mi g s1 s2 i (j + 1) + g then
        let p := prev (j + 1)
        ('-' :: p.1, s2.getD i ' ' :: p.2)
      else ([], [])

/-- The (still reversed) alignment built by the backtrace from state
`(i, j)`. -/
def backtrace (ma mi g : Int) (s1 s2 : List Char) :
    Nat → Nat → List Char × List Char
  | 0 => btRow0 s1
  | i + 1 => btRow ma mi g s1 s2 (backtrace ma mi g s1 s2 i) i

/-- Body of `needle`: fill the grid, backtrace from `(len seq2, len seq1)`, and
reverse the two built sequences before returning them. -/
def needle (ma mi g : Int) (s1 s2 : List Char) : List Char × List Char :=
  let p := backtrace ma mi g s1 s2 s2.length s1.length
  (p.1.reverse, p.2.reverse)

/-! ### Scoring an alignment, de-gapping (vocabulary of the spec's
testable properties) -/

/-- Score of one alignment column: gap penalty when either side is the
gap marker, else match/mismatch by symbol equality. -/
def colScore (ma mi g : Int) (x y : Char) : Int :=
  if x = '-' ∨ y = '-' then g else if x = y then ma else mi

/-- Score of an alignment, summed column by column. -/
def alnScore (ma mi g : Int) : List Char → List Char → Int
  | x :: xs, y :: ys => colScore ma mi g x y + alnScore ma mi g xs ys
  | _, _ => 0

/-- Remove all gap markers from an aligned sequence. -/
def degap (l : List Char) : List Char := l.filter (fun c => c ≠ '-')

/-- Number of positions below both lengths at which the two sequences
differ (the claim's "number of positions i < min(len(s1), len(s2)) with
s1[i] != s2[i]"). -/
def mismatchCount (s t : List Char) : Nat :=
  ((List.range (min s.length t.length)).filter
    (fun i => s.getD i ' ' ≠ t.getD i ' ')).length

/-! ### Dynamic typing of the `needle` entry point

The source checks `type(seq1) not in [str, list, tuple]` (and similarly
for the scoring parameters with `[int, float]`) and raises `TypeError`
before touching the grid.  We model a Python argument value by its
runtime type; `float` values are modelled at the integer scores the
claims exercise (score arithmetic on them is exact). -/

/-- A Python value passed to `needle`: a `str`, `list`, or `tuple` of
symbols, an `int` or `float`, or a value of any other runtime type
(tagged with its type name, e.g. "dict", "bool", "NoneType"). -/
inductive PyVal where
  | pstr : List Char → PyVal
  | plist : List Char → PyVal
  | ptuple : List Char → PyVal
  | pint : Int → PyVal
  | pfloat : Int → PyVal
  | pother : String → PyVal

/-- Whether `type(v) in [str, list, tuple]`. -/
def isSeqVal : PyVal → Bool
  | .pstr _ => true
  | .plist _ => true
  | .ptuple _ => true
  | _ => false

/-- Whether `type(v) in [int, float]`. -/
def isNumVal : PyVal → Bool
  | .pint _ => true
  | .pfloat _ => true
  | _ => false

/-- The symbols of a sequence-typed value. -/
def seqChars : PyVal → List Char
  | .pstr s => s
  | .plist s => s
  | .ptuple s => s
  | _ => []

/-- The numeric content of an `int`/`float` value. -/
def numVal : PyVal → Int
  | .pint n => n
  | .pfloat n => n
  | _ => 0

/-- The `needle` entry point with the source's runtime type checks, in
the source's order (seq1, seq2, match, mismatch, gap); a failed check
raises `TypeError` before any matrix computation, a passed check runs
the alignment. -/
def needleChecked (seq1 seq2 ma mi g : PyVal) :
    Except String (List Char × List Char) :=
  if ¬ isSeqVal seq1 then .error "TypeError: seq1 must be str, list, or tuple"
  else if ¬ isSeqVal seq2 then .error "TypeError: seq2 must be str, list, or tuple"
  else if ¬ isNumVal ma then .error "TypeError: match must be int or float"
  else if ¬ isNumVal mi then .error "TypeError: mismatch must be int or float"
  else if ¬ isNumVal g then .error "TypeError: gap must be int or float"
  else .ok (needle (numVal ma) (numVal mi) (numVal g) (seqChars seq1) (seqChars seq2))

end SeqOps

namespace SeqOps

/-! ### Equations for `grid` and `backtrace` -/

theorem grid_row0 (ma mi g : Int) (s1 s2 : List Char) (j : Nat) :
    grid ma mi g s1 s2 0 j = g * (j : Int) := rfl

theorem grid_col0 (ma mi g : Int) (s1 s2 : List Char) (i : Nat) :
    grid ma mi g s1 s2 i 0 = g * (i : Int) := by
  cases i with
  | zero => rfl
  | succ i =>
      show g * ((i : Int) + 1) = g * ((i + 1 : Nat) : Int)
      push_cast
      ring

theorem grid_succ_succ (ma mi g : Int) (s1 s2 : List Char) (i j : Nat) :
    grid ma mi g s1 s2 (i + 1) (j + 1) =
      max (grid ma mi g s1 s2 i j +
          nw_score ma mi (s1.getD j ' ') (s2.getD i ' '))
        (max (grid ma mi g s1 s2 (i + 1) j + g)
          (grid ma mi g s1 s2 i (j + 1) + g)) := rfl

/-- Each interior cell equals one of its three predecessor transitions,
so the backtrace's if/elif chain always finds a step to take. -/
theorem grid_branch (ma mi g : Int) (s1 s2 : List Char) (i j : Nat) :
    grid ma mi g s1 s2 (i + 1) (j + 1) =
        grid ma mi g s1 s2 i j +
          nw_score ma mi (s1.getD j ' ') (s2.getD i ' ') ∨
      grid ma mi g s1 s2 (i + 1) (j + 1) = grid ma mi g s1 s2 (i + 1) j + g ∨
      grid ma mi g s1 s2 (i + 1) (j + 1) = grid ma mi g s1 s2 i (j + 1) + g := by
  have hg := grid_succ_succ ma mi g s1 s2 i j
  rcases max_choice
      (grid ma mi g s1 s2 i j +
        nw_score ma mi (s1.getD j ' ') (s2.getD i ' '))
      (max (grid ma mi g s1 s2 (i + 1) j + g)
        (grid ma mi g s1 s2 i (j + 1) + g)) with h | h
  · exact Or.inl (hg.trans h)
  · rcases max_choice (grid ma mi g s1 s2 (i + 1) j + g)
        (grid ma mi g s1 s2 i (j + 1) + g) with h2 | h2
    · exact Or.inr (Or.inl (hg.trans (h.trans h2)))
    · exact Or.inr (Or.inr (hg.trans (h.trans h2)))

/-- Moving one column right costs at least one gap penalty:
`grid i j + gap ≤ grid i (j+1)`. -/
theorem grid_step_right (ma mi g : Int) (s1 s2 : List Char) (i j : Nat) :
    grid ma mi g s1 s2 i j + g ≤ grid ma mi g s1 s2 i (j + 1) := by
  cases i with
  | zero =>
      rw [grid_row0, grid_row0]
      apply le_of_eq
      push_cast
      ring
  | succ i =>
      rw [grid_succ_succ]
      exact le_trans (le_max_left _ _) (le_max_right _ _)

/-- Moving one row down costs at least one gap penalty:
`grid i j + gap ≤ grid (i+1) j`. -/
theorem grid_step_down (ma mi g : Int) (s1 s2 : List Char) (i j : Nat) :
    grid ma mi g s1 s2 i j + g ≤ grid ma mi g s1 s2 (i + 1) j := by
  cases j with
  | zero =>
      rw [grid_col0, grid_col0]
      apply le_of_eq
      push_cast
      ring
  | succ j =>
      rw [grid_succ_succ]
      exact le_trans (le_max_right _ _) (le_max_right _ _)

theorem bt_zero_zero (ma mi g : Int) (s1 s2 : List Char) :
    backtrace ma mi g s1 s2 0 0 = ([], []) := rfl

theorem bt_zero_succ (ma mi g : Int) (s1 s2 : List Char) (j : Nat) :
    backtrace ma mi g s1 s2 0 (j + 1) =
      (s1.getD j ' ' :: (backtrace ma mi g s1 s2 0 j).1,
       '-' :: (backtrace ma mi g s1 s2 0 j).2) := rfl

theorem bt_succ_zero (ma mi g : Int) (s1 s2 : List Char) (i : Nat) :
    backtrace ma mi g s1 s2 (i + 1) 0 =
      ('-' :: (backtrace ma mi g s1 s2 i 0).1,
       s2.getD i ' ' :: (backtrace ma mi g s1 s2 i 0).2) := rfl

theorem bt_succ_succ (ma mi g : Int) (s1 s2 : List Char) (i j : Nat) :
    backtrace ma mi g s1 s2 (i + 1) (j + 1) =
      if grid ma mi g s1 s2 (i + 1) (j + 1) =
          grid ma mi g s1 s2 i j +
            nw_score ma mi (s1.getD j ' ') (s2.getD i ' ') then
        (s1.getD j ' ' :: (backtrace ma mi g s1 s2 i j).1,
         s2.getD i ' ' :: (backtrace ma mi g s1 s2 i j).2)
      else if grid ma mi g s1 s2 (i + 1) (j + 1) =
          grid ma mi g s1 s2 (i + 1) j + g then
        (s1.getD j ' ' :: (backtrace ma mi g s1 s2 (i + 1) j).1,
         '-' :: (backtrace ma mi g s1 s2 (i + 1) j).2)
      else if grid ma mi g s1 s2 (i + 1) (j + 1) =
          grid ma mi g s1 s2 i (j + 1) + g then
        ('-' :: (backtrace ma mi g s1 s2 i (j + 1)).1,
         s2.getD i ' ' :: (backtrace ma mi g s1 s2 i (j + 1)).2)
      else ([], []) := rfl

/-- Both built sequences always have the same length: every backtrace
step prepends exactly one symbol to each. -/
theorem backtrace_length (ma mi g : Int) (s1 s2 : List Char) :
    ∀ i j, (backtrace ma mi g s1 s2 i j).1.length =
      (backtrace ma mi g s1 s2 i j).2.length := by
  intro i
  induction i with
  | zero =>
      intro j
      induction j with
      | zero => rfl
      | succ j ihj => rw [bt_zero_succ]; simp [ihj]
  | succ i ih =>
      intro j
      induction j with
      | zero => rw [bt_succ_zero]; simp [ih 0]
      | succ j ihj =>
          rw [bt_succ_succ]
          split_ifs with h1 h2 h3 <;> simp [ih, ihj]

/-! ### List utilities -/

theorem take_succ_getD (l : List Char) (j : Nat) (d : Char) (h : j < l.length) :
    l.take (j + 1) = l.take j ++ [l.getD j d] := by
  rw [List.take_succ]
  congr 1
  rw [List.getElem?_eq_getElem h]
  simp [List.getD_eq_getElem?_getD, List.getElem?_eq_getElem h]

theorem concat_inj_pair {l1 l2 : List Char} {a b : Char}
    (h : l1 ++ [a] = l2 ++ [b]) : l1 = l2 ∧ a = b := by
  have h2 := List.append_inj' h rfl
  exact ⟨h2.1, by simpa using h2.2⟩

theorem getD_mem_of_lt (l : List Char) (k : Nat) (d : Char) (h : k < l.length) :
    l.getD k d ∈ l := by
  rw [List.getD_eq_getElem?_getD, List.getElem?_eq_getElem h]
  exact List.getElem_mem h

theorem getD_zip_mem (d e : Char) :
    ∀ (a b : List Char) (k : Nat), k < a.length → k < b.length →
      (a.getD k d, b.getD k e) ∈ a.zip b := by
  intro a
  induction a with
  | nil => intro b k h1 h2; simp at h1
  | cons x l ih =>
      intro b k h1 h2
      cases b with
      | nil => simp at h2
      | cons y m =>
          cases k with
          | zero => simp [List.zip_cons_cons]
          | succ k =>
              simp only [List.getD_cons_succ, List.zip_cons_cons]
              exact List.mem_cons_of_mem _
                (ih m k (by simpa using h1) (by simpa using h2))

theorem zip_reverse_eq :
    ∀ (a b : List Char), a.length = b.length →
      a.reverse.zip b.reverse = (a.zip b).reverse := by
  intro a
  induction a with
  | nil => intro b h; simp
  | cons x l ih =>
      intro b h
      cases b with
      | nil => simp at h
      | cons y m =>
          have hlen : l.length = m.length := by simpa using h
          simp only [List.reverse_cons]
          rw [List.zip_append (by simp [hlen]), ih m hlen]
          simp [List.zip_cons_cons]

/-! ### Alignment-score utilities -/

theorem alnScore_nil (ma mi g : Int) : alnScore ma mi g [] [] = 0 := rfl

theorem alnScore_cons (ma mi g : Int) (x y : Char) (xs ys : List Char) :
    alnScore ma mi g (x :: xs) (y :: ys) =
      colScore ma mi g x y + alnScore ma mi g xs ys := rfl

theorem alnScore_concat (ma mi g : Int) :
    ∀ (b1 b2 : List Char) (x y : Char), b1.length = b2.length →
      alnScore ma mi g (b1 ++ [x]) (b2 ++ [y]) =
        alnScore ma mi g b1 b2 + colScore ma mi g x y := by
  intro b1
  induction b1 with
  | nil =>
      intro b2 x y h
      cases b2 with
      | nil => simp [alnScore_cons, alnScore_nil]
      | cons b m => simp at h
  | cons a l ih =>
      intro b2 x y h
      cases b2 with
      | nil => simp at h
      | cons b m =>
          have hlen : l.length = m.length := by simpa using h
          simp only [List.cons_append, alnScore_cons, ih m x y hlen]
          ring

theorem alnScore_reverse (ma mi g : Int) :
    ∀ (a b : List Char), a.length = b.length →
      alnScore ma mi g a.reverse b.reverse = alnScore ma mi g a b := by
  intro a
  induction a with
  | nil =>
      intro b h
      cases b with
      | nil => simp
      | cons y m => simp at h
  | cons x l ih =>
      intro b h
      cases b with
      | nil => simp at h
      | cons y m =>
          have hlen : l.length = m.length := by simpa using h
          simp only [List.reverse_cons]
          rw [alnScore_concat ma mi g l.reverse m.reverse x y (by simp [hlen]),
            ih m hlen, alnScore_cons]
          ring

/-! ### De-gapping utilities -/

theorem degap_nil : degap [] = [] := rfl

theorem degap_cons_of_ne (x : Char) (l : List Char) (hx : x ≠ '-') :
    degap (x :: l) = x :: degap l := by
  simp [degap, hx]

theorem degap_cons_gap (l : List Char) : degap ('-' :: l) = degap l := by
  simp [degap]

theorem degap_reverse (l : List Char) : degap l.reverse = (degap l).reverse := by
  simp [degap, List.filter_reverse]

theorem degap_append (l m : List Char) :
    degap (l ++ m) = degap l ++ degap m := by
  simp [degap, List.filter_append]

/-- Reversing a take of one more element. -/
theorem take_succ_reverse (l : List Char) (j : Nat) (d : Char)
    (h : j < l.length) :
    (l.take (j + 1)).reverse = l.getD j d :: (l.take j).reverse := by
  rw [take_succ_getD l j d h]
  simp

/-! ### The backtrace invariant

From state `(i, j)` (with `i ≤ len seq2`, `j ≤ len seq1`, and the gap
marker absent from both inputs) the built pair de-gaps to the reversed
prefixes `seq1[:j]`, `seq2[:i]`, has no column of two gap markers, and
scores exactly `grid i j` under the column scoring scheme. -/

theorem backtrace_invariant (ma mi g : Int) (s1 s2 : List Char)
    (hg1 : '-' ∉ s1) (hg2 : '-' ∉ s2) :
    ∀ i j, i ≤ s2.length → j ≤ s1.length →
      degap (backtrace ma mi g s1 s2 i j).1 = (s1.take j).reverse ∧
      degap (backtrace ma mi g s1 s2 i j).2 = (s2.take i).reverse ∧
      (∀ p ∈ (backtrace ma mi g s1 s2 i j).1.zip
          (backtrace ma mi g s1 s2 i j).2, ¬(p.1 = '-' ∧ p.2 = '-')) ∧
      alnScore ma mi g (backtrace ma mi g s1 s2 i j).1
          (backtrace ma mi g s1 s2 i j).2 = grid ma mi g s1 s2 i j := by
  intro i
  induction i with
  | zero =>
      intro j
      induction j with
      | zero =>
          intro hi hj
          refine ⟨rfl, rfl, by simp [bt_zero_zero], ?_⟩
          rw [bt_zero_zero, grid_row0]
          simp [alnScore_nil]
      | succ j ihj =>
          intro hi hj
          have hj' : j < s1.length := hj
          obtain ⟨ih1, ih2, ih3, ih4⟩ := ihj hi (Nat.le_of_succ_le hj)
          have hx : s1.getD j ' ' ≠ '-' :=
            fun hc => hg1 (hc ▸ getD_mem_of_lt s1 j ' ' hj')
          rw [bt_zero_succ]
          refine ⟨?_, ?_, ?_, ?_⟩
          · rw [degap_cons_of_ne _ _ hx, ih1, take_succ_reverse s1 j ' ' hj']
          · rw [degap_cons_gap, ih2]
          · intro p hp
            rw [List.zip_cons_cons] at hp
            rcases List.mem_cons.mp hp with h | h
            · subst h; exact fun hc => hx hc.1
            · exact ih3 p h
          · rw [alnScore_cons, ih4, grid_row0, grid_row0]
            have hcol : colScore ma mi g (s1.getD j ' ') '-' = g := by
              simp [colScore]
            rw [hcol]
            push_cast
            ring
  | succ i ih =>
      intro j
      induction j with
      | zero =>
          intro hi hj
          have hi' : i < s2.length := hi
          obtain ⟨ih1, ih2, ih3, ih4⟩ := ih 0 (Nat.le_of_succ_le hi) hj
          have hy : s2.getD i ' ' ≠ '-' :=
            fun hc => hg2 (hc ▸ getD_mem_of_lt s2 i ' ' hi')
          rw [bt_succ_zero]
          refine ⟨?_, ?_, ?_, ?_⟩
          · rw [degap_cons_gap, ih1]
          · rw [degap_cons_of_ne _ _ hy, ih2, take_succ_reverse s2 i ' ' hi']
          · intro p hp
            rw [List.zip_cons_cons] at hp
            rcases List.mem_cons.mp hp with h | h
            · subst h; exact fun hc => hy hc.2
            · exact ih3 p h
          · rw [alnScore_cons, ih4, grid_col0, grid_col0]
            have hcol : colScore ma mi g '-' (s2.getD i ' ') = g := by
              simp [colScore]
            rw [hcol]
            push_cast
            ring
      | succ j ihj =>
          intro hi hj
          have hi' : i < s2.length := hi
          have hj' : j < s1.length := hj
          have hx : s1.getD j ' ' ≠ '-' :=
            fun hc => hg1 (hc ▸ getD_mem_of_lt s1 j ' ' hj')
          have hy : s2.getD i ' ' ≠ '-' :=
            fun hc => hg2 (hc ▸ getD_mem_of_lt s2 i ' ' hi')
          rw [bt_succ_succ]
          split_ifs with hd hu hl
          · obtain ⟨ih1, ih2, ih3, ih4⟩ :=
              ih j (Nat.le_of_succ_le hi) (Nat.le_of_succ_le hj)
            refine ⟨?_, ?_, ?_, ?_⟩
            · rw [degap_cons_of_ne _ _ hx, ih1, take_succ_reverse s1 j ' ' hj']
            · rw [degap_cons_of_ne _ _ hy, ih2, take_succ_reverse s2 i ' ' hi']
            · intro p hp
              rw [List.zip_cons_cons] at hp
              rcases List.mem_cons.mp hp with h | h
              · subst h; exact fun hc => hx hc.1
              · exact ih3 p h
            · rw [alnScore_cons, ih4, hd]
              have hcol : colScore ma mi g (s1.getD j ' ') (s2.getD i ' ') =
                  nw_score ma mi (s1.getD j ' ') (s2.getD i ' ') := by
                have hne : ¬(s1.getD j ' ' = '-' ∨ s2.getD i ' ' = '-') := by
                  push_neg
                  exact ⟨hx, hy⟩
                simp only [colScore, nw_score, if_neg hne]
              rw [hcol]
              ring
          · obtain ⟨ih1, ih2, ih3, ih4⟩ := ihj hi (Nat.le_of_succ_le hj)
            refine ⟨?_, ?_, ?_, ?_⟩
            · rw [degap_cons_of_ne _ _ hx, ih1, take_succ_reverse s1 j ' ' hj']
            · rw [degap_cons_gap, ih2]
            · intro p hp
              rw [List.zip_cons_cons] at hp
              rcases List.mem_cons.mp hp with h | h
              · subst h; exact fun hc => hx hc.1
              · exact ih3 p h
            · rw [alnScore_cons, ih4, hu]
              have hcol : colScore ma mi g (s1.getD j ' ') '-' = g := by
                simp [colScore]
              rw [hcol]
              ring
          · obtain ⟨ih1, ih2, ih3, ih4⟩ :=
              ih (j + 1) (Nat.le_of_succ_le hi) hj
            refine ⟨?_, ?_, ?_, ?_⟩
            · rw [degap_cons_gap, ih1]
            · rw [degap_cons_of_ne _ _ hy, ih2, take_succ_reverse s2 i ' ' hi']
            · intro p hp
              rw [List.zip_cons_cons] at hp
              rcases List.mem_cons.mp hp with h | h
              · subst h; exact fun hc => hy hc.2
              · exact ih3 p h
            · rw [alnScore_cons, ih4, hl]
              have hcol : colScore ma mi g '-' (s2.getD i ' ') = g := by
                simp [colScore]
              rw [hcol]
              ring
          · exact absurd (grid_branch ma mi g s1 s2 i j)
              (by push_neg; exact ⟨hd, hu, hl⟩)

theorem getD_eq_default_of_le (l : List Char) (n : Nat) (d : Char)
    (h : l.length ≤ n) : l.getD n d = d := by
  rw [List.getD_eq_getElem?_getD, List.getElem?_eq_none h]
  rfl

/-! ### Optimality: no valid alignment of the prefixes scores above the
grid cell.

A valid alignment of `seq1[:j]` against `seq2[:i]` is a pair of
equal-length gap-marked sequences that de-gap to those prefixes and have
no column of two gap markers; induction over the alignment from its last
column shows its score is at most `grid i j`. -/

theorem alnScore_le_grid (ma mi g : Int) (s1 s2 : List Char) :
    ∀ (n : Nat) (a1 a2 : List Char) (i j : Nat),
      a1.length = n → a2.length = n → i ≤ s2.length → j ≤ s1.length →
      degap a1 = s1.take j → degap a2 = s2.take i →
      (∀ p ∈ a1.zip a2, ¬(p.1 = '-' ∧ p.2 = '-')) →
      alnScore ma mi g a1 a2 ≤ grid ma mi g s1 s2 i j := by
  intro n
  induction n with
  | zero =>
      intro a1 a2 i j h1 h2 hi hj hd1 hd2 hng
      have ha1 : a1 = [] := List.length_eq_zero.mp h1
      have ha2 : a2 = [] := List.length_eq_zero.mp h2
      subst ha1
      subst ha2
      have hj0 : j = 0 := by
        rcases List.take_eq_nil_iff.mp (degap_nil ▸ hd1).symm with h | h
        · exact h
        · subst h; simpa using hj
      have hi0 : i = 0 := by
        rcases List.take_eq_nil_iff.mp (degap_nil ▸ hd2).symm with h | h
        · exact h
        · subst h; simpa using hi
      subst hj0
      subst hi0
      rw [alnScore_nil, grid_row0]
      simp
  | succ n ihn =>
      intro a1 a2 i j h1 h2 hi hj hd1 hd2 hng
      obtain ⟨b1, x, rfl⟩ : ∃ b1 x, a1 = b1 ++ [x] := by
        rcases a1.eq_nil_or_concat with h | ⟨b1, x, h⟩
        · subst h; simp at h1
        · exact ⟨b1, x, by simpa [List.concat_eq_append] using h⟩
      obtain ⟨b2, y, rfl⟩ : ∃ b2 y, a2 = b2 ++ [y] := by
        rcases a2.eq_nil_or_concat with h | ⟨b2, y, h⟩
        · subst h; simp at h2
        · exact ⟨b2, y, by simpa [List.concat_eq_append] using h⟩
      have hb1 : b1.length = n := by simpa using h1
      have hb2 : b2.length = n := by simpa using h2
      have hbl : b1.length = b2.length := hb1.trans hb2.symm
      have hzip : (b1 ++ [x]).zip (b2 ++ [y]) = b1.zip b2 ++ [(x, y)] := by
        rw [List.zip_append hbl]
        rfl
      have hnglast : ¬(x = '-' ∧ y = '-') := by
        refine hng (x, y) ?_
        rw [hzip]
        exact List.mem_append_right _ (by simp)
      have hngrest : ∀ p ∈ b1.zip b2, ¬(p.1 = '-' ∧ p.2 = '-') := by
        intro p hp
        exact hng p (by rw [hzip]; exact List.mem_append_left _ hp)
      rw [alnScore_concat ma mi g b1 b2 x y hbl]
      have hsplit1 : degap b1 ++ degap [x] = s1.take j := by
        rw [← degap_append]; exact hd1
      have hsplit2 : degap b2 ++ degap [y] = s2.take i := by
        rw [← degap_append]; exact hd2
      by_cases hx : x = '-'
      · by_cases hy : y = '-'
        · exact absurd ⟨hx, hy⟩ hnglast
        · -- gap in seq1 side: the last column consumes a seq2 symbol
          subst hx
          have hd1' : degap b1 = s1.take j := by
            simpa [degap_cons_gap, degap_nil] using hsplit1
          cases i with
          | zero =>
              exfalso
              simp [degap_cons_of_ne y [] hy, degap_nil] at hsplit2
          | succ i =>
              have hi' : i < s2.length := hi
              have htk : s2.take (i + 1) = s2.take i ++ [s2.getD i ' '] :=
                take_succ_getD s2 i ' ' hi'
              have hpair : degap b2 = s2.take i ∧ y = s2.getD i ' ' := by
                apply concat_inj_pair
                rw [← htk, ← hsplit2]
                simp [degap_cons_of_ne y [] hy, degap_nil]
              have hrec := ihn b1 b2 i j hb1 hb2 (Nat.le_of_succ_le hi) hj
                hd1' hpair.1 hngrest
              have hcol : colScore ma mi g '-' y = g := by simp [colScore]
              rw [hcol]
              calc alnScore ma mi g b1 b2 + g
                  ≤ grid ma mi g s1 s2 i j + g := by linarith
                _ ≤ grid ma mi g s1 s2 (i + 1) j := grid_step_down ma mi g s1 s2 i j
      · by_cases hy : y = '-'
        · -- gap in seq2 side: the last column consumes a seq1 symbol
          subst hy
          have hd2' : degap b2 = s2.take i := by
            simpa [degap_cons_gap, degap_nil] using hsplit2
          cases j with
          | zero =>
              exfalso
              simp [degap_cons_of_ne x [] hx, degap_nil] at hsplit1
          | succ j =>
              have hj' : j < s1.length := hj
              have htk : s1.take (j + 1) = s1.take j ++ [s1.getD j ' '] :=
                take_succ_getD s1 j ' ' hj'
              have hpair : degap b1 = s1.take j ∧ x = s1.getD j ' ' := by
                apply concat_inj_pair
                rw [← htk, ← hsplit1]
                simp [degap_cons_of_ne x [] hx, degap_nil]
              have hrec := ihn b1 b2 i j hb1 hb2 hi (Nat.le_of_succ_le hj)
                hpair.1 hd2' hngrest
              have hcol : colScore ma mi g x '-' = g := by simp [colScore]
              rw [hcol]
              calc alnScore ma mi g b1 b2 + g
                  ≤ grid ma mi g s1 s2 i j + g := by linarith
                _ ≤ grid ma mi g s1 s2 i (j + 1) := grid_step_right ma mi g s1 s2 i j
        · -- both symbols real: the last column is a diagonal step
          cases j with
          | zero =>
              exfalso
              simp [degap_cons_of_ne x [] hx, degap_nil] at hsplit1
          | succ j =>
              cases i with
              | zero =>
                  exfalso
                  simp [degap_cons_of_ne y [] hy, degap_nil] at hsplit2
              | succ i =>
                  have hi' : i < s2.length := hi
                  have hj' : j < s1.length := hj
                  have hpair1 : degap b1 = s1.take j ∧ x = s1.getD j ' ' := by
                    apply concat_inj_pair
                    rw [← take_succ_getD s1 j ' ' hj', ← hsplit1]
                    simp [degap_cons_of_ne x [] hx, degap_nil]
                  have hpair2 : degap b2 = s2.take i ∧ y = s2.getD i ' ' := by
                    apply concat_inj_pair
                    rw [← take_succ_getD s2 i ' ' hi', ← hsplit2]
                    simp [degap_cons_of_ne y [] hy, degap_nil]
                  have hrec := ihn b1 b2 i j hb1 hb2 (Nat.le_of_succ_le hi)
                    (Nat.le_of_succ_le hj) hpair1.1 hpair2.1 hngrest
                  have hcol : colScore ma mi g x y =
                      nw_score ma mi (s1.getD j ' ') (s2.getD i ' ') := by
                    have hne : ¬(x = '-' ∨ y = '-') := by
                      push_neg; exact ⟨hx, hy⟩
                    simp only [colScore, if_neg hne, nw_score,
                      ← hpair1.2, ← hpair2.2]
                  rw [hcol]
                  calc alnScore ma mi g b1 b2 +
                        nw_score ma mi (s1.getD j ' ') (s2.getD i ' ')
                      ≤ grid ma mi g s1 s2 i j +
                        nw_score ma mi (s1.getD j ' ') (s2.getD i ' ') := by linarith
                    _ ≤ grid ma mi g s1 s2 (i + 1) (j + 1) := by
                        rw [grid_succ_succ]
                        exact le_max_left _ _

/-! ### hamming: loop characterisation -/

theorem foldl_count (q : Nat → Bool) :
    ∀ (l : List Nat) (a : Nat),
      l.foldl (fun d i => if q i then d + 1 else d) a =
        a + (l.filter q).length := by
  intro l
  induction l with
  | nil => intro a; simp
  | cons x xs ih =>
      intro a
      by_cases hx : q x = true
      · simp only [List.foldl_cons, List.filter_cons, hx, if_pos, ih]
        simp
        omega
      · simp only [List.foldl_cons, List.filter_cons, hx, if_neg, ih]
        simp [hx]

theorem hamming_loop_eq (s t : List Char) :
    hamming_loop s t = mismatchCount s t +
      (max s.length t.length - min s.length t.length) := by
  have hbody : (fun (d i : Nat) =>
      if i < s.length ∧ i < t.length then
        if s.getD i ' ' ≠ t.getD i ' ' then d + 1 else d
      else d + 1) = fun (d i : Nat) =>
        if (decide (¬(i < s.length ∧ i < t.length) ∨
            s.getD i ' ' ≠ t.getD i ' ') : Bool) then d + 1 else d := by
    funext d i
    by_cases h1 : i < s.length ∧ i < t.length
    · by_cases h2 : s.getD i ' ' ≠ t.getD i ' ' <;> simp [h1, h2]
    · simp [h1]
  have hsplit : List.range (max s.length t.length) =
      List.range (min s.length t.length) ++
        (List.range (max s.length t.length - min s.length t.length)).map
          (fun x => min s.length t.length + x) := by
    rw [← List.range_add]
    congr 1
    omega
  unfold hamming_loop
  rw [hbody, foldl_count, hsplit, List.filter_append, List.length_append]
  have h1 : ((List.range (min s.length t.length)).filter
      (fun i => decide (¬(i < s.length ∧ i < t.length) ∨
        s.getD i ' ' ≠ t.getD i ' '))).length = mismatchCount s t := by
    unfold mismatchCount
    congr 1
    apply List.filter_congr
    intro i hi
    have hi' : i < min s.length t.length := List.mem_range.mp hi
    have hand : i < s.length ∧ i < t.length := by
      constructor <;> omega
    simp [hand]
  have h2 : (((List.range (max s.length t.length - min s.length t.length)).map
      (fun x => min s.length t.length + x)).filter
      (fun i => decide (¬(i < s.length ∧ i < t.length) ∨
        s.getD i ' ' ≠ t.getD i ' '))).length =
      max s.length t.length - min s.length t.length := by
    rw [List.filter_eq_self.mpr, List.length_map, List.length_range]
    intro a ha
    obtain ⟨x, hx, rfl⟩ := List.mem_map.mp ha
    have : ¬(min s.length t.length + x < s.length ∧
        min s.length t.length + x < t.length) := by
      intro hc
      omega
    simp [this]
  rw [h1, h2]
  omega

theorem mismatchCount_self (s : List Char) : mismatchCount s s = 0 := by
  unfold mismatchCount
  rw [List.length_eq_zero]
  apply List.filter_eq_nil_iff.mpr
  intro a ha
  simp

/-! ### rev_comp: characterisation -/

theorem foldl_append_singleton (f : Char → Char) :
    ∀ (l : List Char) (acc : List Char),
      l.foldl (fun a i => a ++ [f i]) acc = acc ++ l.map f := by
  intro l
  induction l with
  | nil => intro acc; simp
  | cons x xs ih => intro acc; simp [ih]

theorem rev_comp_eq_map (s : List Char) :
    rev_comp s = (s.map comp_base).reverse := by
  unfold rev_comp
  rw [foldl_append_singleton]
  simp [List.map_reverse]

theorem comp_base_invol (c : Char) : comp_base (comp_base c) = c := by
  by_cases h1 : c = 'A'
  · subst h1; decide
  by_cases h2 : c = 'T'
  · subst h2; decide
  by_cases h3 : c = 'C'
  · subst h3; decide
  by_cases h4 : c = 'G'
  · subst h4; decide
  by_cases h5 : c = 'a'
  · subst h5; decide
  by_cases h6 : c = 't'
  · subst h6; decide
  by_cases h7 : c = 'c'
  · subst h7; decide
  by_cases h8 : c = 'g'
  · subst h8; decide
  have hnone : rev_comp_lookup c = none := by
    simp [rev_comp_lookup, h1, h2, h3, h4, h5, h6, h7, h8]
  simp [comp_base, hnone]

theorem comp_base_unrecognised (c : Char)
    (h : c ∉ ['A', 'T', 'C', 'G', 'a', 't', 'c', 'g']) : comp_base c = c := by
  simp only [List.mem_cons, List.not_mem_nil, or_false, not_or] at h
  obtain ⟨h1, h2, h3, h4, h5, h6, h7, h8⟩ := h
  simp [comp_base, rev_comp_lookup, h1, h2, h3, h4, h5, h6, h7, h8]

/-! ### Transposition of the score grids -/

theorem nw_score_symm (ma mi : Int) (x y : Char) :
    nw_score ma mi x y = nw_score ma mi y x := by
  unfold nw_score
  by_cases h : x = y
  · simp [h]
  · rw [if_neg h, if_neg (fun hc => h hc.symm)]

/-- Swapping the two sequences transposes the score grid cell by cell. -/
theorem grid_transpose (ma mi g : Int) (s1 s2 : List Char) :
    ∀ i j, grid ma mi g s2 s1 j i = grid ma mi g s1 s2 i j := by
  have key : ∀ n i j, i + j ≤ n →
      grid ma mi g s2 s1 j i = grid ma mi g s1 s2 i j := by
    intro n
    induction n with
    | zero =>
        intro i j h
        have hi : i = 0 := by omega
        have hj : j = 0 := by omega
        subst hi
        subst hj
        rfl
    | succ n ih =>
        intro i j h
        cases i with
        | zero => rw [grid_col0, grid_row0]
        | succ i =>
            cases j with
            | zero => rw [grid_row0, grid_col0]
            | succ j =>
                rw [grid_succ_succ, grid_succ_succ,
                  ih i j (by omega), ih (i + 1) j (by omega),
                  ih i (j + 1) (by omega),
                  nw_score_symm ma mi (s2.getD i ' ') (s1.getD j ' '),
                  max_comm (grid ma mi g s1 s2 i (j + 1) + g)
                    (grid ma mi g s1 s2 (i + 1) j + g)]
  intro i j
  exact key (i + j) i j le_rfl

/-! ### Degenerate rows/columns of the backtrace -/

theorem bt_row0_all (ma mi g : Int) (s1 s2 : List Char) :
    ∀ j, j ≤ s1.length → backtrace ma mi g s1 s2 0 j =
      ((s1.take j).reverse, List.replicate j '-') := by
  intro j
  induction j with
  | zero => intro hj; rfl
  | succ j ih =>
      intro hj
      rw [bt_zero_succ, ih (Nat.le_of_succ_le hj),
        take_succ_reverse s1 j ' ' hj]
      rfl

theorem bt_col0_all (ma mi g : Int) (s1 s2 : List Char) :
    ∀ i, i ≤ s2.length → backtrace ma mi g s1 s2 i 0 =
      (List.replicate i '-', (s2.take i).reverse) := by
  intro i
  induction i with
  | zero => intro hi; rfl
  | succ i ih =>
      intro hi
      rw [bt_succ_zero, ih (Nat.le_of_succ_le hi),
        take_succ_reverse s2 i ' ' hi]
      rfl

/-! ## Claim theorems -/

/-- C1: for gap-marker-free sequences and integer scoring parameters,
row 0 and column 0 of the score matrix hold cumulative gap penalties and
every interior cell is the max of the three predecessor transitions; the
alignment returned by `needle`, rescored column by column (match for
equal symbols, mismatch for unequal ones, gap for a column containing a
gap marker), scores exactly the bottom-right cell; and no valid
alignment of the two sequences (equal lengths, de-gapping to the inputs,
no column of two gap markers) scores more, so that cell is the maximal
achievable global alignment score. -/
theorem needle_optimal (ma mi g : Int) (s1 s2 : List Char)
    (hg1 : '-' ∉ s1) (hg2 : '-' ∉ s2) :
    (∀ j, grid ma mi g s1 s2 0 j = g * (j : Int)) ∧
    (∀ i, grid ma mi g s1 s2 i 0 = g * (i : Int)) ∧
    (∀ i j, grid ma mi g s1 s2 (i + 1) (j + 1) =
      max (grid ma mi g s1 s2 i j +
          nw_score ma mi (s1.getD j ' ') (s2.getD i ' '))
        (max (grid ma mi g s1 s2 (i + 1) j + g)
          (grid ma mi g s1 s2 i (j + 1) + g))) ∧
    alnScore ma mi g (needle ma mi g s1 s2).1 (needle ma mi g s1 s2).2 =
      grid ma mi g s1 s2 s2.length s1.length ∧
    (∀ a1 a2, a1.length = a2.length → degap a1 = s1 → degap a2 = s2 →
      (∀ p ∈ a1.zip a2, ¬(p.1 = '-' ∧ p.2 = '-')) →
      alnScore ma mi g a1 a2 ≤ grid ma mi g s1 s2 s2.length s1.length) := by
  refine ⟨grid_row0 ma mi g s1 s2, grid_col0 ma mi g s1 s2,
    grid_succ_succ ma mi g s1 s2, ?_, ?_⟩
  · obtain ⟨-, -, -, h4⟩ := backtrace_invariant ma mi g s1 s2 hg1 hg2
      s2.length s1.length le_rfl le_rfl
    have hlen := backtrace_length ma mi g s1 s2 s2.length s1.length
    simp only [needle]
    rw [alnScore_reverse ma mi g _ _ hlen]
    exact h4
  · intro a1 a2 hlen hd1 hd2 hng
    exact alnScore_le_grid ma mi g s1 s2 a1.length a1 a2 s2.length s1.length
      rfl hlen.symm le_rfl le_rfl
      (by rw [hd1, List.take_length])
      (by rw [hd2, List.take_length]) hng

theorem needle_optimal_witness :
    ('-' ∉ (['G', 'A', 'T'] : List Char)) ∧
    ('-' ∉ (['G', 'T'] : List Char)) ∧
    alnScore 100 (-1) (-2) (needle 100 (-1) (-2) ['G', 'A', 'T'] ['G', 'T']).1
        (needle 100 (-1) (-2) ['G', 'A', 'T'] ['G', 'T']).2 =
      grid 100 (-1) (-2) ['G', 'A', 'T'] ['G', 'T'] 2 3 :=
  ⟨by decide, by decide,
    (needle_optimal 100 (-1) (-2) ['G', 'A', 'T'] ['G', 'T']
      (by decide) (by decide)).2.2.2.1⟩

/-- C2: for gap-marker-free sequences, removing all gap markers from the
first returned aligned sequence yields seq1 exactly, and from the second
yields seq2, order preserved. -/
theorem needle_degap (ma mi g : Int) (s1 s2 : List Char)
    (hg1 : '-' ∉ s1) (hg2 : '-' ∉ s2) :
    degap (needle ma mi g s1 s2).1 = s1 ∧
    degap (needle ma mi g s1 s2).2 = s2 := by
  obtain ⟨h1, h2, -, -⟩ := backtrace_invariant ma mi g s1 s2 hg1 hg2
    s2.length s1.length le_rfl le_rfl
  simp only [needle]
  constructor
  · rw [degap_reverse, h1, List.take_length, List.reverse_reverse]
  · rw [degap_reverse, h2, List.take_length, List.reverse_reverse]

theorem needle_degap_witness :
    ('-' ∉ (['A', 'C'] : List Char)) ∧ ('-' ∉ (['A'] : List Char)) ∧
    degap (needle 100 (-1) (-2) ['A', 'C'] ['A']).1 = ['A', 'C'] ∧
    degap (needle 100 (-1) (-2) ['A', 'C'] ['A']).2 = ['A'] :=
  ⟨by decide, by decide,
    (needle_degap 100 (-1) (-2) ['A', 'C'] ['A'] (by decide) (by decide)).1,
    (needle_degap 100 (-1) (-2) ['A', 'C'] ['A'] (by decide) (by decide)).2⟩

/-- C3: the two aligned sequences returned by `needle` always have equal
length, and the returned pair is exactly the backtrace-built pair
reversed back into left-to-right orientation. -/
theorem needle_length_eq (ma mi g : Int) (s1 s2 : List Char) :
    (needle ma mi g s1 s2).1.length = (needle ma mi g s1 s2).2.length ∧
    needle ma mi g s1 s2 =
      ((backtrace ma mi g s1 s2 s2.length s1.length).1.reverse,
       (backtrace ma mi g s1 s2 s2.length s1.length).2.reverse) := by
  refine ⟨?_, rfl⟩
  simp only [needle]
  simp [backtrace_length]

/-- C4: for gap-marker-free sequences, no alignment column carries the
gap marker on both sides: at every index at most one of the two aligned
sequences reads '-' (out-of-range lookups return the non-gap default). -/
theorem needle_no_both_gap (ma mi g : Int) (s1 s2 : List Char)
    (hg1 : '-' ∉ s1) (hg2 : '-' ∉ s2) :
    ∀ k, ¬((needle ma mi g s1 s2).1.getD k 'A' = '-' ∧
           (needle ma mi g s1 s2).2.getD k 'A' = '-') := by
  intro k
  obtain ⟨-, -, h3, -⟩ := backtrace_invariant ma mi g s1 s2 hg1 hg2
    s2.length s1.length le_rfl le_rfl
  have hlen := backtrace_length ma mi g s1 s2 s2.length s1.length
  simp only [needle]
  by_cases hk :
      k < (backtrace ma mi g s1 s2 s2.length s1.length).1.reverse.length
  · have hk2 :
        k < (backtrace ma mi g s1 s2 s2.length s1.length).2.reverse.length := by
      simp only [List.length_reverse] at hk ⊢
      omega
    have hmem := getD_zip_mem 'A' 'A'
      (backtrace ma mi g s1 s2 s2.length s1.length).1.reverse
      (backtrace ma mi g s1 s2 s2.length s1.length).2.reverse k hk hk2
    rw [zip_reverse_eq _ _ hlen] at hmem
    exact h3 _ (List.mem_reverse.mp hmem)
  · intro hc
    have hgap :
        (backtrace ma mi g s1 s2 s2.length s1.length).1.reverse.getD k 'A' =
          'A' :=
      getD_eq_default_of_le _ _ _ (Nat.le_of_not_lt hk)
    rw [hgap] at hc
    exact absurd hc.1 (by decide)

theorem needle_no_both_gap_witness :
    ('-' ∉ (['A'] : List Char)) ∧ ('-' ∉ (['T'] : List Char)) ∧
    ¬((needle 100 (-1) (-2) ['A'] ['T']).1.getD 0 'A' = '-' ∧
      (needle 100 (-1) (-2) ['A'] ['T']).2.getD 0 'A' = '-') :=
  ⟨by decide, by decide,
    needle_no_both_gap 100 (-1) (-2) ['A'] ['T'] (by decide) (by decide) 0⟩

/-- C5 counterexample: with match=1, mismatch=-10, gap=-1 the backtrace
prefers consuming seq1 on an up/left tie in both call orders, so
needle("A","T") = ("-A","T-") while needle("T","A") = ("-T","A-"), not
the transpose ("T-","-A"). -/
theorem needle_not_transpose :
    ¬(needle 1 (-10) (-1) ['T'] ['A'] =
      ((needle 1 (-10) (-1) ['A'] ['T']).2,
       (needle 1 (-10) (-1) ['A'] ['T']).1)) := by
  decide

/-- C5 (amended): swapping the two input sequences transposes the score
matrix cell by cell (hence both call orders compute the same optimal
score), but the returned alignments are not in general transposes of one
another. -/
theorem needle_grid_symmetric (ma mi g : Int) (s1 s2 : List Char) :
    ∀ i j, grid ma mi g s2 s1 j i = grid ma mi g s1 s2 i j :=
  grid_transpose ma mi g s1 s2

/-- C6: empty sequences are valid inputs and the degenerate cases return
an all-gap alignment of the other sequence's full length. -/
theorem needle_empty (ma mi g : Int) (s : List Char) :
    needle ma mi g [] s = (List.replicate s.length '-', s) ∧
    needle ma mi g s [] = (s, List.replicate s.length '-') ∧
    needle ma mi g ([] : List Char) [] = (([] : List Char), ([] : List Char)) ∧
    needle 100 (-1) (-2) [] ['A', 'C', 'G', 'T'] =
      (['-', '-', '-', '-'], ['A', 'C', 'G', 'T']) ∧
    needle 100 (-1) (-2) ['A', 'C', 'G', 'T'] [] =
      (['A', 'C', 'G', 'T'], ['-', '-', '-', '-']) := by
  refine ⟨?_, ?_, rfl, by decide, by decide⟩
  · simp only [needle, List.length_nil]
    rw [bt_col0_all ma mi g [] s s.length le_rfl]
    simp
  · simp only [needle, List.length_nil]
    rw [bt_row0_all ma mi g s [] s.length le_rfl]
    simp

/-- C7: the checked entry point raises a type error exactly when one of
seq1/seq2 is not a str/list/tuple or one of the scoring parameters is
not an int/float; the checks run before any grid computation, and on
validly typed inputs it returns the total alignment function's result,
which is a valid (equal-length) alignment. -/
theorem needleChecked_spec (v1 v2 m mm gv : PyVal) :
    ((∃ r, needleChecked v1 v2 m mm gv = Except.ok r) ↔
      (isSeqVal v1 = true ∧ isSeqVal v2 = true ∧ isNumVal m = true ∧
       isNumVal mm = true ∧ isNumVal gv = true)) ∧
    (∀ r, needleChecked v1 v2 m mm gv = Except.ok r →
      r = needle (numVal m) (numVal mm) (numVal gv)
            (seqChars v1) (seqChars v2) ∧
      r.1.length = r.2.length) := by
  constructor
  · unfold needleChecked
    split_ifs with h1 h2 h3 h4 h5 <;>
      simp_all
  · intro r hr
    unfold needleChecked at hr
    split_ifs at hr
    have hrr : r = needle (numVal m) (numVal mm) (numVal gv)
        (seqChars v1) (seqChars v2) := by
      cases hr
      rfl
    subst hrr
    refine ⟨rfl, ?_⟩
    simp only [needle]
    simp [backtrace_length]

theorem needleChecked_spec_witness :
    needleChecked (PyVal.pstr ['A']) (PyVal.pstr ['T']) (PyVal.pint 100)
        (PyVal.pint (-1)) (PyVal.pint (-2)) =
      Except.ok (needle 100 (-1) (-2) ['A'] ['T']) ∧
    (needle 100 (-1) (-2) ['A'] ['T']).1.length =
      (needle 100 (-1) (-2) ['A'] ['T']).2.length :=
  ⟨rfl,
    ((needleChecked_spec (PyVal.pstr ['A']) (PyVal.pstr ['T']) (PyVal.pint 100)
        (PyVal.pint (-1)) (PyVal.pint (-2))).2
      (needle 100 (-1) (-2) ['A'] ['T']) rfl).2⟩

/-- C8 counterexample: the claimed value of rev_comp("AaTtCcGg") is
wrong; the function actually returns "cCgGaAtT" (reverse of the
case-preserving complement "TtAaGgCc"). -/
theorem rev_comp_claim_counterexample :
    rev_comp ['A', 'a', 'T', 't', 'C', 'c', 'G', 'g'] ≠
      ['c', 'c', 'G', 'g', 'A', 'A', 't', 'T'] := by
  decide

/-- C8 (amended): rev_comp maps every character through the fixed
case-preserving complement table (A↔T, C↔G, a↔t, c↔g), leaves characters
outside "ATCGatcg" unchanged, and reverses the order; in particular
rev_comp("AaTtCcGg") = "cCgGaAtT", rev_comp("ACGT") = "ACGT", and
rev_comp("AATT") = "AATT". -/
theorem rev_comp_spec (s : List Char) :
    rev_comp s = (s.map comp_base).reverse ∧
    comp_base 'A' = 'T' ∧ comp_base 'T' = 'A' ∧
    comp_base 'C' = 'G' ∧ comp_base 'G' = 'C' ∧
    comp_base 'a' = 't' ∧ comp_base 't' = 'a' ∧
    comp_base 'c' = 'g' ∧ comp_base 'g' = 'c' ∧
    (∀ c, c ∉ ['A', 'T', 'C', 'G', 'a', 't', 'c', 'g'] → comp_base c = c) ∧
    rev_comp ['A', 'a', 'T', 't', 'C', 'c', 'G', 'g'] =
      ['c', 'C', 'g', 'G', 'a', 'A', 't', 'T'] ∧
    rev_comp ['A', 'C', 'G', 'T'] = ['A', 'C', 'G', 'T'] ∧
    rev_comp ['A', 'A', 'T', 'T'] = ['A', 'A', 'T', 'T'] :=
  ⟨rev_comp_eq_map s, by decide, by decide, by decide, by decide, by decide,
    by decide, by decide, by decide, comp_base_unrecognised,
    by decide, by decide, by decide⟩

theorem rev_comp_spec_witness :
    ('N' ∉ ['A', 'T', 'C', 'G', 'a', 't', 'c', 'g']) ∧ comp_base 'N' = 'N' :=
  ⟨by decide,
    (rev_comp_spec []).2.2.2.2.2.2.2.2.2.1 'N' (by decide)⟩

/-- C9: hamming returns the triple of shifted mismatch counts: the
positionwise mismatch count over the common range plus the length
difference, for (s1, s2), (s1[1:], s2) and (s1, s2[1:]); for any string
the unshifted distance to itself is 0. -/
theorem hamming_spec (s1 s2 : List Char) :
    hamming s1 s2 =
      (mismatchCount s1 s2 +
        (max s1.length s2.length - min s1.length s2.length),
       mismatchCount (s1.drop 1) s2 +
        (max (s1.drop 1).length s2.length - min (s1.drop 1).length s2.length),
       mismatchCount s1 (s2.drop 1) +
        (max s1.length (s2.drop 1).length -
          min s1.length (s2.drop 1).length)) ∧
    (hamming s1 s1).1 = 0 := by
  constructor
  · unfold hamming
    rw [hamming_loop_eq, hamming_loop_eq, hamming_loop_eq]
  · show hamming_loop s1 s1 = 0
    rw [hamming_loop_eq, mismatchCount_self]
    omega

/-- C10: rev_comp is an involution on arbitrary strings: the complement
table is self-inverse, unrecognised characters pass through unchanged,
and reversing twice restores the original order. -/
theorem rev_comp_involution (s : List Char) : rev_comp (rev_comp s) = s := by
  rw [rev_comp_eq_map, rev_comp_eq_map, List.map_reverse,
    List.reverse_reverse, List.map_map]
  have hcc : comp_base ∘ comp_base = id := funext comp_base_invol
  rw [hcc, List.map_id]

end SeqOps
